import Mathlib

/-!
Verification of the overlapping Wave Function Collapse implementation
(`src/overlapping_wfc.hpp`).  The C++ code is shallowly embedded: `size_t`
arithmetic is `Nat` taken modulo `2 ^ 64` wherever the source can overflow,
`uint8_t` casts are `% 256`, vectors are `List Nat`, and out-of-line
collaborators that are not part of the repository snapshot (the `WFC` base
class, `Wave`, and the `Helper` routines) are modelled from the
specification where a claim needs them, each marked `Modelled from the
spec:` in its doc comment.
-/

namespace WfcCpp

/-- The modulus of `size_t` arithmetic on the target platform (64-bit). -/
def SIZE_MOD : Nat := 2 ^ 64

/-- `size_t W = 1; for (int i = 0; i < N * N; i++) W *= C;`
(from `OverlappingWFC::init`, applied with `n = N * N`). -/
def computeW (C : Nat) : Nat → Nat
  | 0 => 1
  | n + 1 => computeW C n * C % SIZE_MOD

/-- One iteration of the fingerprint loop in `OverlappingWFC::init`:
`ind += p[p.size() - 1 - i] * power; power *= C;` in `size_t` arithmetic.
The state is `(ind, power)` and the digit fed in at step `i` is
`p[p.size() - 1 - i]`, i.e. the loop walks the reversed pattern. -/
def encodeStep (C : Nat) (st : Nat × Nat) (digit : Nat) : Nat × Nat :=
  ((st.1 + digit * st.2) % SIZE_MOD, st.2 * C % SIZE_MOD)

/-- The base-`C` fingerprint of a pattern as computed by the loop in
`OverlappingWFC::init` (lines 130-132): `size_t ind = 0, power = 1;
for (i = 0; i < p.size(); i++, power *= C) ind += p[p.size()-1-i] * power;`. -/
def fingerprint (C : Nat) (p : List Nat) : Nat :=
  (p.reverse.foldl (encodeStep C) (0, 1)).1

/-- The inner `while (residue >= power) { residue -= power; count++; }`
loop of `patternFromIndex`, with an explicit iteration budget so the
recursion is structural.  Returns `(count, residue)`. -/
def subCountGo (power : Nat) : Nat → Nat → Nat × Nat
  | 0, residue => (0, residue)
  | fuel + 1, residue =>
    if 0 < power ∧ power ≤ residue then
      let r := subCountGo power fuel (residue - power)
      (r.1 + 1, r.2)
    else (0, residue)

/-- The subtraction loop of `patternFromIndex`; `residue` iterations always
suffice because each pass removes `power ≥ 1` from the residue.  (When
`power = 0` the C++ loop would not terminate unless `residue < power` at
entry; this embedding is only ever applied with `power > 0`, which our
theorems establish from their no-overflow hypotheses.) -/
def subCount (power residue : Nat) : Nat × Nat :=
  subCountGo power residue residue

/-- The body of `patternFromIndex` in `OverlappingWFC::init`
(lines 141-152): starting from `residue = ind, power = W`, each step does
`power /= C`, extracts one digit by repeated subtraction, and stores it as
a `uint8_t` (hence `% 256`).  `n` is `result.size() = N * N`. -/
def decodeDigits (C : Nat) : Nat → Nat → Nat → List Nat
  | 0, _, _ => []
  | n + 1, power, residue =>
    let power' := power / C
    let r := subCount power' residue
    r.1 % 256 :: decodeDigits C n power' r.2

/-- `patternFromIndex(ind, result)` with `result.size() = n` and the
captured `W` (from `OverlappingWFC::init`). -/
def patternFromIndex (C W ind n : Nat) : List Nat :=
  decodeDigits C n W ind

/- ### Arithmetic facts about the fingerprint machinery -/

theorem subCountGo_eq (power : Nat) (hp : 0 < power) :
    ∀ (fuel residue : Nat), residue ≤ fuel →
      subCountGo power fuel residue = (residue / power, residue % power) := by
  intro fuel
  induction fuel with
  | zero =>
    intro residue hf
    have h0 : residue = 0 := Nat.le_zero.mp hf
    subst h0
    simp [subCountGo]
  | succ fuel ih =>
    intro residue hf
    rw [subCountGo]
    by_cases hle : power ≤ residue
    · have hrec : residue - power ≤ fuel := by omega
      simp only [hp, hle, and_self, if_pos, ih _ hrec]
      rw [Nat.div_eq residue power, Nat.mod_eq residue power]
      simp [hp, hle]
    · simp only [hle, and_false, if_neg, not_false_iff]
      rw [Nat.div_eq, Nat.mod_eq]
      simp [hle]

theorem subCount_eq (power residue : Nat) (hp : 0 < power) :
    subCount power residue = (residue / power, residue % power) :=
  subCountGo_eq power hp residue residue (Nat.le_refl _)

theorem computeW_eq_pow (C n : Nat) (h : C ^ n < SIZE_MOD) :
    computeW C n = C ^ n := by
  induction n with
  | zero => rfl
  | succ n ih =>
    rcases Nat.eq_zero_or_pos C with hC | hC
    · subst hC
      rw [computeW, Nat.mul_zero, Nat.zero_mod, Nat.pow_succ, Nat.mul_zero]
    · have hle : C ^ n ≤ C ^ (n + 1) :=
        Nat.pow_le_pow_right hC (Nat.le_succ n)
      rw [computeW, ih (Nat.lt_of_le_of_lt hle h), ← Nat.pow_succ,
        Nat.mod_eq_of_lt h]

/-- Exact (overflow-free) value of the fingerprint loop: folding the
reversed pattern from state `(a, pw)` accumulates `Nat.ofDigits`. -/
theorem encode_fold_exact (C : Nat) (l : List Nat) (a pw : Nat)
    (hfit : a + pw * Nat.ofDigits C l < SIZE_MOD)
    (hpw : pw * C ^ l.length < SIZE_MOD) :
    l.foldl (encodeStep C) (a, pw) =
      (a + pw * Nat.ofDigits C l, pw * C ^ l.length) := by
  induction l generalizing a pw with
  | nil => simp [Nat.ofDigits_nil]
  | cons d t ih =>
    have hdig : Nat.ofDigits C (d :: t) = d + C * Nat.ofDigits C t := by
      rw [Nat.ofDigits_cons]
    have hlen : C ^ (d :: t).length = C * C ^ t.length := by
      rw [List.length_cons, Nat.pow_succ]; ring
    have hexp : a + pw * Nat.ofDigits C (d :: t) =
        (a + d * pw) + (pw * C) * Nat.ofDigits C t := by
      rw [hdig]; ring
    have hfit' : (a + d * pw) + (pw * C) * Nat.ofDigits C t < SIZE_MOD := by
      omega
    have hpw' : (pw * C) * C ^ t.length < SIZE_MOD := by
      rw [hlen, ← Nat.mul_assoc] at hpw
      exact hpw
    have hstep : encodeStep C (a, pw) d = (a + d * pw, pw * C) := by
      unfold encodeStep
      simp only [Prod.mk.injEq]
      refine ⟨Nat.mod_eq_of_lt ?_, Nat.mod_eq_of_lt ?_⟩
      · omega
      · rcases Nat.eq_zero_or_pos C with hC | hC
        · subst hC
          simp only [Nat.mul_zero]
          exact Nat.pos_of_ne_zero (by decide)
        · have hone : (1:Nat) ≤ C ^ t.length := Nat.one_le_pow _ _ hC
          calc pw * C = pw * C * 1 := by ring
          _ ≤ pw * C * C ^ t.length := Nat.mul_le_mul_left _ hone
          _ < SIZE_MOD := hpw'
    rw [List.foldl_cons, hstep, ih _ _ hfit' hpw', hexp, hlen]
    simp only [Prod.mk.injEq, true_and]
    ring

theorem ofDigits_lt_pow (C : Nat) (l : List Nat) (h : ∀ e ∈ l, e < C) :
    Nat.ofDigits C l < C ^ l.length := by
  induction l with
  | nil => simp [Nat.ofDigits_nil]
  | cons d t ih =>
    have hd : d < C := h d (List.mem_cons_self d t)
    have ht : Nat.ofDigits C t < C ^ t.length :=
      ih (fun e he => h e (List.mem_cons_of_mem d he))
    rw [Nat.ofDigits_cons, List.length_cons, Nat.pow_succ]
    have h1 : (d : Nat) + C * Nat.ofDigits C t < C * (Nat.ofDigits C t + 1) := by
      have hmul : C * (Nat.ofDigits C t + 1) = C * Nat.ofDigits C t + C := by ring
      omega
    have h2 : C * (Nat.ofDigits C t + 1) ≤ C * C ^ t.length :=
      Nat.mul_le_mul_left C ht
    calc (d : Nat) + C * Nat.ofDigits C t < C * (Nat.ofDigits C t + 1) := h1
    _ ≤ C * C ^ t.length := h2
    _ = C ^ t.length * C := Nat.mul_comm _ _

/-- Under the no-overflow precondition the fingerprint loop computes the
exact base-`C` value `Σᵢ pᵢ · C^(n−1−i)`, i.e. `Nat.ofDigits C p.reverse`. -/
theorem fingerprint_exact (C : Nat) (p : List Nat)
    (hC : ∀ e ∈ p, e < C) (hW : C ^ p.length < SIZE_MOD) :
    fingerprint C p = Nat.ofDigits C p.reverse := by
  have hrev : ∀ e ∈ p.reverse, e < C := fun e he => hC e (List.mem_reverse.mp he)
  have hlt : Nat.ofDigits C p.reverse < C ^ p.length := by
    have := ofDigits_lt_pow C p.reverse hrev
    rwa [List.length_reverse] at this
  have hfit : 0 + 1 * Nat.ofDigits C p.reverse < SIZE_MOD := by omega
  have hpw : 1 * C ^ p.reverse.length < SIZE_MOD := by
    rw [List.length_reverse]; omega
  unfold fingerprint
  rw [encode_fold_exact C p.reverse 0 1 hfit hpw]
  simp

/-- Digit-by-digit inversion: decoding `Nat.ofDigits C l.reverse`
(the MSB-first base-`C` value of `l`) with `W = C ^ l.length` restores `l`. -/
theorem decodeDigits_ofDigits (C : Nat) (l : List Nat)
    (hC : ∀ e ∈ l, e < C) (h8 : ∀ e ∈ l, e < 256) :
    decodeDigits C l.length (C ^ l.length) (Nat.ofDigits C l.reverse) = l := by
  induction l with
  | nil => rfl
  | cons d t ih =>
    have hCpos : 0 < C := Nat.pos_of_ne_zero (by
      intro h0
      exact absurd (h0 ▸ hC d (List.mem_cons_self d t)) (Nat.not_lt_zero d))
    have hpowpos : 0 < C ^ t.length := Nat.pos_pow_of_pos _ hCpos
    have hr : Nat.ofDigits C t.reverse < C ^ t.length := by
      have := ofDigits_lt_pow C t.reverse
        (fun e he => hC e (List.mem_cons_of_mem d (List.mem_reverse.mp he)))
      rwa [List.length_reverse] at this
    have hv : Nat.ofDigits C (d :: t).reverse =
        Nat.ofDigits C t.reverse + C ^ t.length * d := by
      rw [List.reverse_cons, Nat.ofDigits_append, List.length_reverse,
        Nat.ofDigits_singleton]
    have hpow' : C ^ (d :: t).length / C = C ^ t.length := by
      rw [List.length_cons, Nat.pow_succ, Nat.mul_div_cancel _ hCpos]
    rw [List.length_cons, decodeDigits]
    rw [show (d :: t).length = t.length + 1 from rfl] at hpow'
    rw [hpow', hv, subCount_eq _ _ hpowpos]
    have hdiv : (Nat.ofDigits C t.reverse + C ^ t.length * d) / C ^ t.length = d := by
      rw [Nat.add_mul_div_left _ _ hpowpos, Nat.div_eq_of_lt hr, Nat.zero_add]
    have hmod : (Nat.ofDigits C t.reverse + C ^ t.length * d) % C ^ t.length =
        Nat.ofDigits C t.reverse := by
      rw [Nat.add_mul_mod_self_left, Nat.mod_eq_of_lt hr]
    rw [hdiv, hmod, Nat.mod_eq_of_lt (h8 d (List.mem_cons_self d t)),
      ih (fun e he => hC e (List.mem_cons_of_mem d he))
         (fun e he => h8 e (List.mem_cons_of_mem d he))]

/-- Round-trip of the fingerprint encode/decode pair (shared helper). -/
theorem patternFromIndex_fingerprint (C : Nat) (p : List Nat)
    (hC : ∀ e ∈ p, e < C) (h8 : ∀ e ∈ p, e < 256)
    (hW : C ^ p.length < SIZE_MOD) :
    patternFromIndex C (computeW C p.length) (fingerprint C p) p.length = p := by
  unfold patternFromIndex
  rw [computeW_eq_pow C p.length hW, fingerprint_exact C p hC hW]
  exact decodeDigits_ofDigits C p hC h8

/-- **C3.** For every pattern `p` (a sequence of palette indices, each
`< C` and a `uint8_t`, hence `< 256`), if `C ^ |p|` fits in `size_t`
(no overflow of the fingerprint width) then decoding the base-`C`
fingerprint of `p` — exactly as computed by the encoding loop of
`OverlappingWFC::init` — via `patternFromIndex` yields `p` back. -/
theorem claim_C3_fingerprint_roundtrip (C : Nat) (p : List Nat)
    (hC : ∀ e ∈ p, e < C) (h8 : ∀ e ∈ p, e < 256)
    (hW : C ^ p.length < SIZE_MOD) :
    patternFromIndex C (computeW C p.length) (fingerprint C p) p.length = p :=
  patternFromIndex_fingerprint C p hC h8 hW

/-- Witness for C3 at `C = 3`, `p = [2, 0, 1]`. -/
theorem claim_C3_fingerprint_roundtrip_witness :
    (∀ e ∈ [2, 0, 1], e < 3) ∧
      patternFromIndex 3 (computeW 3 3) (fingerprint 3 [2, 0, 1]) 3 = [2, 0, 1] :=
  ⟨by decide,
   claim_C3_fingerprint_roundtrip 3 [2, 0, 1] (by decide) (by decide)
     (by norm_num [SIZE_MOD])⟩

/-- Every digit produced by `patternFromIndex` on a fingerprint
`ind < C ^ n` is strictly less than `C`. -/
theorem decodeDigits_entries_lt (C : Nat) (hCpos : 0 < C) :
    ∀ (n ind : Nat), ind < C ^ n →
      ∀ e ∈ decodeDigits C n (C ^ n) ind, e < C := by
  intro n
  induction n with
  | zero => intro ind _ e he; simp [decodeDigits] at he
  | succ n ih =>
    intro ind hind e he
    have hpowpos : 0 < C ^ n := Nat.pos_pow_of_pos _ hCpos
    have hpow' : C ^ (n + 1) / C = C ^ n := by
      rw [Nat.pow_succ, Nat.mul_div_cancel _ hCpos]
    rw [decodeDigits] at he
    rw [hpow', subCount_eq _ _ hpowpos] at he
    rcases List.mem_cons.mp he with h | h
    · have hdivlt : ind / C ^ n < C := by
        rw [Nat.div_lt_iff_lt_mul hpowpos]
        rw [Nat.pow_succ] at hind
        calc ind < C ^ n * C := hind
        _ = C * C ^ n := Nat.mul_comm _ _
      subst h
      exact Nat.lt_of_le_of_lt (Nat.mod_le _ _) hdivlt
    · exact ih (ind % C ^ n) (Nat.lt_of_lt_of_le (Nat.mod_lt _ hpowpos)
        (Nat.le_refl _)) e h

/- ### The `agrees` predicate and the propagator table -/

/-- `size_t xmin = dx < 0 ? 0 : dx` (and likewise `ymin`) from `agrees`. -/
def rangeLo (d : Int) : Nat :=
  if d < 0 then 0 else d.toNat

/-- `size_t xmax = dx < 0 ? dx + N : N` (and likewise `ymax`) from `agrees`. -/
def rangeHi (N : Nat) (d : Int) : Nat :=
  if d < 0 then (d + N).toNat else N

/-- The `agrees` lambda of `OverlappingWFC::init` (lines 163-173): scans the
overlap rectangle `[xmin, xmax) × [ymin, ymax)` and compares
`p1[x + N*y]` with `p2[x - dx + N*(y - dy)]`. -/
def agrees (N : Nat) (p1 p2 : List Nat) (dx dy : Int) : Bool :=
  (List.range' (rangeLo dy) (rangeHi N dy - rangeLo dy)).all fun y =>
    (List.range' (rangeLo dx) (rangeHi N dx - rangeLo dx)).all fun x =>
      p1.getD (x + N * y) 0 ==
        p2.getD (((x : Int) - dx).toNat + N * (((y : Int) - dy)).toNat) 0

/-- Modelled from the spec: the cardinal offsets `DX[d]`, `DY[d]` of the
`WFC` base class (`wfc.hpp`, which is not part of the repository snapshot).
The spec fixes the convention that direction `3 - d` is the opposite of
direction `d`, i.e. `(DX[3-d], DY[3-d]) = (-DX[d], -DY[d])`. -/
def DX : List Int := [0, -1, 1, 0]

/-- Modelled from the spec: see `DX`. -/
def DY : List Int := [-1, 0, 0, 1]

/-- The propagator table built by `OverlappingWFC::init` (lines 175-186):
`propagator[d][p1]` collects, in index order, every `p2` such that
`agrees(patterns[p1], patterns[p2], DX[d], DY[d])`. -/
def propagator (N : Nat) (patterns : List (List Nat)) : List (List (List Nat)) :=
  (List.range 4).map fun d =>
    (List.range patterns.length).map fun p1 =>
      (List.range patterns.length).filter fun p2 =>
        agrees N (patterns.getD p1 []) (patterns.getD p2 [])
          (DX.getD d 0) (DY.getD d 0)

/-- `compat[d][p1]`, the row of the propagator table for direction `d`
and pattern `p1`. -/
def compat (N : Nat) (patterns : List (List Nat)) (d p1 : Nat) : List Nat :=
  ((propagator N patterns).getD d []).getD p1 []

theorem mem_range'_lo_hi (lo hi m : Nat) :
    m ∈ List.range' lo (hi - lo) ↔ lo ≤ m ∧ m < hi := by
  rw [List.mem_range'_1]
  omega

theorem rangeLo_le_iff (d : Int) (x : Nat) : rangeLo d ≤ x ↔ d ≤ (x : Int) := by
  unfold rangeLo
  split <;> omega

theorem lt_rangeHi_iff (N : Nat) (d : Int) (x : Nat) :
    x < rangeHi N d ↔ (x : Int) < N ∧ (x : Int) < N + d := by
  unfold rangeHi
  split <;> omega

/-- Pointwise characterisation of `agrees`: it is `true` iff the two
patterns coincide on every cell of the overlap rectangle. -/
theorem agrees_eq_true_iff (N : Nat) (p1 p2 : List Nat) (dx dy : Int) :
    agrees N p1 p2 dx dy = true ↔
      ∀ x y : Int, 0 ≤ x → dx ≤ x → x < N → x < N + dx →
        0 ≤ y → dy ≤ y → y < N → y < N + dy →
        p1.getD (x.toNat + N * y.toNat) 0 =
          p2.getD ((x - dx).toNat + N * (y - dy).toNat) 0 := by
  unfold agrees
  simp only [List.all_eq_true, mem_range'_lo_hi, beq_iff_eq, and_imp]
  constructor
  · intro h x y hx0 hxd hxN hxNd hy0 hyd hyN hyNd
    have hx := h y.toNat ((rangeLo_le_iff dy y.toNat).mpr (by omega))
      ((lt_rangeHi_iff N dy y.toNat).mpr (by constructor <;> omega))
      x.toNat ((rangeLo_le_iff dx x.toNat).mpr (by omega))
      ((lt_rangeHi_iff N dx x.toNat).mpr (by constructor <;> omega))
    rwa [Int.toNat_of_nonneg hx0, Int.toNat_of_nonneg hy0] at hx
  · intro h y hylo hyhi x hxlo hxhi
    have hxd := (rangeLo_le_iff dx x).mp hxlo
    have hxN := (lt_rangeHi_iff N dx x).mp hxhi
    have hyd := (rangeLo_le_iff dy y).mp hylo
    have hyN := (lt_rangeHi_iff N dy y).mp hyhi
    have hx := h (x : Int) (y : Int) (by omega) hxd hxN.1 hxN.2
      (by omega) hyd hyN.1 hyN.2
    rwa [Int.toNat_natCast, Int.toNat_natCast] at hx

/-- Agreement is symmetric under swapping the patterns and negating the
offset. -/
theorem agrees_comm (N : Nat) (p1 p2 : List Nat) (dx dy : Int) :
    agrees N p2 p1 (-dx) (-dy) = agrees N p1 p2 dx dy := by
  have h1 := agrees_eq_true_iff N p2 p1 (-dx) (-dy)
  have h2 := agrees_eq_true_iff N p1 p2 dx dy
  apply Bool.eq_iff_iff.mpr
  rw [h1, h2]
  constructor
  · intro h x y hx0 hxd hxN hxNd hy0 hyd hyN hyNd
    have hx := h (x - dx) (y - dy) (by omega) (by omega) (by omega) (by omega)
      (by omega) (by omega) (by omega) (by omega)
    have e1 : x - dx - -dx = x := by ring
    have e2 : y - dy - -dy = y := by ring
    rw [e1, e2] at hx
    exact hx.symm
  · intro h x y hx0 hxd hxN hxNd hy0 hyd hyN hyNd
    have hx := h (x + dx) (y + dy) (by omega) (by omega) (by omega) (by omega)
      (by omega) (by omega) (by omega) (by omega)
    have e1 : x + dx - dx = x := by ring
    have e2 : y + dy - dy = y := by ring
    rw [e1, e2] at hx
    have e3 : x - -dx = x + dx := by ring
    have e4 : y - -dy = y + dy := by ring
    rw [e3, e4]
    exact hx.symm

/-- The spec-mandated opposite-direction convention holds for the modelled
offsets: `(DX[3-d], DY[3-d]) = (-DX[d], -DY[d])` for `d < 4`. -/
theorem DXDY_opposite (d : Nat) (hd : d < 4) :
    DX.getD (3 - d) 0 = -DX.getD d 0 ∧ DY.getD (3 - d) 0 = -DY.getD d 0 := by
  interval_cases d <;> exact ⟨rfl, rfl⟩

theorem compat_eq_filter (N : Nat) (patterns : List (List Nat)) (d p1 : Nat)
    (hd : d < 4) (hp1 : p1 < patterns.length) :
    compat N patterns d p1 =
      (List.range patterns.length).filter fun p2 =>
        agrees N (patterns.getD p1 []) (patterns.getD p2 [])
          (DX.getD d 0) (DY.getD d 0) := by
  have h1 : (propagator N patterns).getD d [] =
      (List.range patterns.length).map (fun q =>
        (List.range patterns.length).filter fun p2 =>
          agrees N (patterns.getD q []) (patterns.getD p2 [])
            (DX.getD d 0) (DY.getD d 0)) := by
    unfold propagator
    rw [List.getD_eq_getElem?_getD, List.getElem?_map, List.getElem?_range hd]
    rfl
  unfold compat
  rw [h1, List.getD_eq_getElem?_getD, List.getElem?_map, List.getElem?_range hp1]
  rfl

theorem mem_compat_iff (N : Nat) (patterns : List (List Nat)) (d p1 p2 : Nat)
    (hd : d < 4) (hp1 : p1 < patterns.length) :
    p2 ∈ compat N patterns d p1 ↔
      p2 < patterns.length ∧
        agrees N (patterns.getD p1 []) (patterns.getD p2 [])
          (DX.getD d 0) (DY.getD d 0) = true := by
  rw [compat_eq_filter N patterns d p1 hd hp1, List.mem_filter, List.mem_range]

/-- **C5.** For the propagator table built by `init`: for every direction
`d < 4` and all pattern indices `p1, p2 < P`,
`p2 ∈ compat[d][p1] ↔ p1 ∈ compat[3-d][p2]`. -/
theorem claim_C5_propagator_symmetric (N : Nat) (patterns : List (List Nat))
    (d p1 p2 : Nat) (hd : d < 4)
    (hp1 : p1 < patterns.length) (hp2 : p2 < patterns.length) :
    p2 ∈ compat N patterns d p1 ↔ p1 ∈ compat N patterns (3 - d) p2 := by
  rw [mem_compat_iff N patterns d p1 p2 hd hp1,
    mem_compat_iff N patterns (3 - d) p2 p1 (by omega) hp2]
  obtain ⟨hdx, hdy⟩ := DXDY_opposite d hd
  rw [hdx, hdy, agrees_comm]
  constructor
  · rintro ⟨_, h⟩; exact ⟨hp1, h⟩
  · rintro ⟨_, h⟩; exact ⟨hp2, h⟩

/-- Witness for C5 on a concrete two-pattern table
(`N = 2`, patterns `[0,0,0,0]` and `[1,1,1,1]`, direction `d = 1`). -/
theorem claim_C5_propagator_symmetric_witness :
    (1 : Nat) < 4 ∧
      ((1 : Nat) ∈ compat 2 [[0, 0, 0, 0], [1, 1, 1, 1]] 1 0 ↔
        (0 : Nat) ∈ compat 2 [[0, 0, 0, 0], [1, 1, 1, 1]] 2 1) :=
  ⟨by decide,
   claim_C5_propagator_symmetric 2 [[0, 0, 0, 0], [1, 1, 1, 1]] 1 0 1
     (by decide) (by decide) (by decide)⟩

/-- **C4.** `agrees(p1, p2, dx, dy)` returns `true` iff the palette indices
of `p1` and `p2` match on every cell of the overlap region
`x ∈ [max(0,dx), min(N,N+dx))`, `y ∈ [max(0,dy), min(N,N+dy))` in
`p1`-coordinates, the corresponding `p2` cell being offset by `(-dx,-dy)`. -/
theorem claim_C4_agrees_overlap (N : Nat) (p1 p2 : List Nat) (dx dy : Int)
    (hdx : dx.natAbs < N) (hdy : dy.natAbs < N) :
    agrees N p1 p2 dx dy = true ↔
      ∀ x y : Int, max 0 dx ≤ x → x < min (N : Int) (N + dx) →
        max 0 dy ≤ y → y < min (N : Int) (N + dy) →
        p1.getD (x.toNat + N * y.toNat) 0 =
          p2.getD ((x - dx).toNat + N * (y - dy).toNat) 0 := by
  rw [agrees_eq_true_iff]
  constructor
  · intro h x y hx1 hx2 hy1 hy2
    exact h x y (by omega) (by omega) (by omega) (by omega)
      (by omega) (by omega) (by omega) (by omega)
  · intro h x y hx0 hxd hxN hxNd hy0 hyd hyN hyNd
    exact h x y (by omega) (by omega) (by omega) (by omega)

/-- Witness for C4 at `N = 2`, `p1 = [0,1,2,3]`, `p2 = [1,0,3,2]`,
`(dx, dy) = (1, 0)`. -/
theorem claim_C4_agrees_overlap_witness :
    (Int.natAbs 1 < 2 ∧ Int.natAbs 0 < 2) ∧
      (agrees 2 [0, 1, 2, 3] [1, 0, 3, 2] 1 0 = true ↔
        ∀ x y : Int, max 0 1 ≤ x → x < min (2 : Int) (2 + 1) →
          max 0 0 ≤ y → y < min (2 : Int) (2 + 0) →
          [0, 1, 2, 3].getD (x.toNat + 2 * y.toNat) 0 =
            [1, 0, 3, 2].getD ((x - 1).toNat + 2 * (y - 0).toNat) 0) :=
  ⟨⟨by decide, by decide⟩,
   claim_C4_agrees_overlap 2 [0, 1, 2, 3] [1, 0, 3, 2] 1 0 (by decide) (by decide)⟩

/- ### The pattern-extraction pipeline of `OverlappingWFC::init` -/

/-- Modelled from the spec: `ords` (from `utils/helper.hpp`, not part of
the repository snapshot) builds the palette of distinct colors in
first-appearance order and re-encodes each pixel as its palette index.
One step processes one pixel; the state is `(sample so far, palette)`. -/
def ordsStep (st : List Nat × List Nat) (pixel : Nat) : List Nat × List Nat :=
  if pixel ∈ st.2 then (st.1 ++ [st.2.indexOf pixel], st.2)
  else (st.1 ++ [st.2.length], st.2 ++ [pixel])

/-- Modelled from the spec: `ords(input.data, colors)` — returns the
palette-indexed sample together with the palette (`colors`). -/
def ords (input : List Nat) : List Nat × List Nat :=
  input.foldl ordsStep ([], [])

/-- Modelled from the spec: `Helper::pattern(temp, N, f)` (from
`utils/helper.hpp`) fills the row-major `N×N` window at origin `(x, y)`,
sampling the exemplar with modular arithmetic:
`temp[dx + dy*N] = sample[(x+dx) % i_W + ((y+dy) % i_H) * i_W]`. -/
def patternAt (sample : List Nat) (iW iH N x y : Nat) : List Nat :=
  (List.range (N * N)).map fun i =>
    sample.getD ((x + i % N) % iW + ((y + i / N) % iH) * iW) 0

/-- Modelled from the spec: `Helper::rotated` — one quarter-turn of an
`N×N` window: the output cell `(x, y)` reads the input cell `(N-1-y, x)`. -/
def rotated (N : Nat) (q : List Nat) : List Nat :=
  (List.range (N * N)).map fun i =>
    q.getD ((N - 1 - i / N) + (i % N) * N) 0

/-- Modelled from the spec: `Helper::reflected` — horizontal mirror of an
`N×N` window: the output cell `(x, y)` reads the input cell `(N-1-x, y)`. -/
def reflected (N : Nat) (q : List Nat) : List Nat :=
  (List.range (N * N)).map fun i =>
    q.getD ((N - 1 - i % N) + (i / N) * N) 0

/-- Modelled from the spec: `Helper::squareSymmetries` returns the prefix,
selected by the `symmetry` option, of the canonical eight D₄ variants:
identity, rotate90, rotate180, rotate270, and the reflections of those. -/
def squareSymmetries (N sym : Nat) (t : List Nat) : List (List Nat) :=
  List.take sym
    [t, rotated N t, rotated N (rotated N t), rotated N (rotated N (rotated N t)),
     reflected N t, reflected N (rotated N t),
     reflected N (rotated N (rotated N t)),
     reflected N (rotated N (rotated N (rotated N t)))]

/-- `size_t` subtraction (wraps modulo `2^64`), used for `i_W - N + 1`. -/
def sizeSub (a b : Nat) : Nat :=
  (a + (SIZE_MOD - b % SIZE_MOD)) % SIZE_MOD

/-- `xmax = periodic_input ? i_W : i_W - N + 1` in `size_t` arithmetic
(from `OverlappingWFC::init`, line 106; `ymax` is the same with `i_H`). -/
def xmaxOf (periodicInput : Bool) (iW N : Nat) : Nat :=
  if periodicInput then iW else (sizeSub iW N + 1) % SIZE_MOD

/-- The fingerprints of the symmetry variants enumerated at one origin
`(x, y)`: the pattern window is extracted, its `symmetry`-prefix of D₄
variants generated, and each variant fingerprinted (this is the body of
the double loop of `OverlappingWFC::init`, lines 111-135). -/
def originFPs (C iW iH N sym : Nat) (sample : List Nat) (x y : Nat) : List Nat :=
  (squareSymmetries N sym (patternAt sample iW iH N x y)).map (fingerprint C)

/-- The full stream of fingerprints enumerated by the extraction scan, in
loop order: `y` outer over `[0, ymax)`, `x` inner over `[0, xmax)`,
variants innermost. -/
def fpStream (C iW iH N sym xmax ymax : Nat) (sample : List Nat) : List Nat :=
  ((List.range ymax).map fun y =>
    ((List.range xmax).map fun x =>
      originFPs C iW iH N sym sample x y).flatten).flatten

/-- One fingerprint arriving at the dedup table:
`if (!(wtable[ind]++)) ordering.push_back(ind);`.  The state is the
`unordered_map` (as its zero-defaulted count function) together with
`ordering`; `wtable` gains a key exactly when the count was previously
absent (zero), which is exactly when `ind` is appended to `ordering`, so
`wtable.size() = ordering.length` throughout. -/
def addFP (st : (Nat → Nat) × List Nat) (ind : Nat) : (Nat → Nat) × List Nat :=
  (fun j => if j = ind then st.1 j + 1 else st.1 j,
   if st.1 ind = 0 then st.2 ++ [ind] else st.2)

/-- Folding the whole fingerprint stream through the dedup table. -/
def extractFold (stream : List Nat) : (Nat → Nat) × List Nat :=
  stream.foldl addFP (fun _ => 0, [])

/-- The outputs of `OverlappingWFC::init` that the claims are about. -/
structure InitResult where
  colors : List Nat
  P : Nat
  patterns : List (List Nat)
  weights : List Nat
  prop : List (List (List Nat))
deriving DecidableEq

/-- `OverlappingWFC::init` (lines 85-187), assembled from the pieces
above: build the palette, scan the exemplar, dedup fingerprints, decode
the pattern table and weights, and build the propagator.
`P = wtable.size()` is `ordering.length` (see `addFP`). -/
def init (iW iH N sym : Nat) (periodicInput : Bool) (input : List Nat) :
    InitResult :=
  let oc := ords input
  let sample := oc.1
  let colors := oc.2
  let C := colors.length
  let W := computeW C (N * N)
  let xmax := xmaxOf periodicInput iW N
  let ymax := xmaxOf periodicInput iH N
  let stream := fpStream C iW iH N sym xmax ymax sample
  let st := extractFold stream
  let ordering := st.2
  let patterns := ordering.map (fun w => patternFromIndex C W w (N * N))
  let weights := ordering.map st.1
  ⟨colors, ordering.length, patterns, weights, propagator N patterns⟩

/- ### Invariants of the dedup fold -/

theorem sum_map_bump (l : List Nat) (f : Nat → Nat) (a : Nat)
    (hnd : l.Nodup) (ha : a ∈ l) :
    (l.map (fun j => if j = a then f j + 1 else f j)).sum = (l.map f).sum + 1 := by
  induction l with
  | nil => cases ha
  | cons b t ih =>
    rcases List.mem_cons.mp ha with rfl | hat
    · have hnt : a ∉ t := (List.nodup_cons.mp hnd).1
      simp only [List.map_cons, List.sum_cons, if_pos rfl]
      have hmap : t.map (fun j => if j = a then f j + 1 else f j) = t.map f := by
        apply List.map_congr_left
        intro j hj
        rw [if_neg (show ¬j = a from fun h => hnt (h ▸ hj))]
      rw [if_true, hmap]
      omega
    · have hb : b ≠ a := by
        rintro rfl
        exact (List.nodup_cons.mp hnd).1 hat
      simp only [List.map_cons, List.sum_cons, if_neg hb]
      rw [ih (List.nodup_cons.mp hnd).2 hat]
      omega

theorem extractFold_invariant (stream : List Nat) (f : Nat → Nat)
    (ord : List Nat) (hnd : ord.Nodup) (hmem : ∀ j, f j = 0 ↔ j ∉ ord) :
    (stream.foldl addFP (f, ord)).2.Nodup ∧
      (∀ j, (stream.foldl addFP (f, ord)).1 j = 0 ↔
        j ∉ (stream.foldl addFP (f, ord)).2) ∧
      (∀ j, (stream.foldl addFP (f, ord)).1 j = f j + stream.count j) ∧
      (∀ j, j ∈ (stream.foldl addFP (f, ord)).2 ↔ (j ∈ ord ∨ j ∈ stream)) ∧
      ((stream.foldl addFP (f, ord)).2.map (stream.foldl addFP (f, ord)).1).sum
        = (ord.map f).sum + stream.length := by
  induction stream generalizing f ord with
  | nil =>
    refine ⟨hnd, hmem, ?_, ?_, ?_⟩
    · intro j; simp [List.foldl_nil]
    · intro j; simp [List.foldl_nil]
    · simp [List.foldl_nil]
  | cons a rest ih =>
    by_cases hfa : f a = 0
    · -- first occurrence of `a`: it is appended to `ordering`
      have hna : a ∉ ord := (hmem a).mp hfa
      have hstep : (a :: rest).foldl addFP (f, ord) =
          rest.foldl addFP (fun j => if j = a then f j + 1 else f j, ord ++ [a]) := by
        rw [List.foldl_cons]
        congr 1
        unfold addFP
        rw [if_pos hfa]
      have hnd2 : (ord ++ [a]).Nodup := by
        rw [List.nodup_append]
        refine ⟨hnd, List.nodup_singleton a, ?_⟩
        intro x hx hx'
        rcases List.mem_singleton.mp hx' with rfl
        exact hna hx
      have hmem2 : ∀ j, (if j = a then f j + 1 else f j) = 0 ↔
          j ∉ ord ++ [a] := by
        intro j
        by_cases hja : j = a
        · subst hja
          simp [List.mem_append]
        · simp only [if_neg hja, List.mem_append, List.mem_singleton]
          rw [hmem j]
          constructor
          · intro h hj
            rcases hj with hj | hj
            · exact h hj
            · exact hja hj
          · intro h hj
            exact h (Or.inl hj)
      obtain ⟨i1, i2, i3, i4, i5⟩ := ih _ _ hnd2 hmem2
      rw [hstep]
      refine ⟨i1, i2, ?_, ?_, ?_⟩
      · intro j
        rw [i3 j]
        by_cases hja : j = a
        · subst hja
          simp [List.count_cons]
          omega
        · simp only [if_neg hja, List.count_cons]
          have : (a == j) = false := by
            simp [BEq.beq]
            exact fun h => hja h.symm
          simp [this]
      · intro j
        rw [i4 j]
        simp only [List.mem_append, List.mem_singleton, List.mem_cons]
        tauto
      · have hmapeq : ord.map (fun j => if j = a then f j + 1 else f j) =
            ord.map f := by
          apply List.map_congr_left
          intro j hj
          rw [if_neg (show ¬j = a from fun h => hna (h ▸ hj))]
        have hsum2 : ((ord ++ [a]).map (fun j => if j = a then f j + 1 else f j)).sum
            = (ord.map f).sum + 1 := by
          rw [List.map_append, List.sum_append, hmapeq]
          simp [hfa]
        rw [i5, hsum2, List.length_cons]
        omega
    · -- repeat occurrence: `ordering` unchanged, count bumped
      have hain : a ∈ ord := not_not.mp (fun hn => hfa ((hmem a).mpr hn))
      have hstep : (a :: rest).foldl addFP (f, ord) =
          rest.foldl addFP (fun j => if j = a then f j + 1 else f j, ord) := by
        rw [List.foldl_cons]
        congr 1
        unfold addFP
        rw [if_neg hfa]
      have hmem2 : ∀ j, (if j = a then f j + 1 else f j) = 0 ↔ j ∉ ord := by
        intro j
        by_cases hja : j = a
        · subst hja
          rw [if_pos rfl]
          constructor
          · intro h; exact absurd h (Nat.succ_ne_zero _)
          · intro h; exact absurd hain h
        · rw [if_neg hja]
          exact hmem j
      obtain ⟨i1, i2, i3, i4, i5⟩ := ih _ _ hnd hmem2
      rw [hstep]
      refine ⟨i1, i2, ?_, ?_, ?_⟩
      · intro j
        rw [i3 j]
        by_cases hja : j = a
        · subst hja
          simp [List.count_cons]
          omega
        · simp only [if_neg hja, List.count_cons]
          have : (a == j) = false := by
            simp [BEq.beq]
            exact fun h => hja h.symm
          simp [this]
      · intro j
        rw [i4 j]
        simp only [List.mem_cons]
        constructor
        · rintro (hj | hj)
          · exact Or.inl hj
          · exact Or.inr (Or.inr hj)
        · rintro (hj | rfl | hj)
          · exact Or.inl hj
          · exact Or.inl hain
          · exact Or.inr hj
      · rw [i5, sum_map_bump ord f a hnd hain, List.length_cons]
        omega

/-- The dedup-fold facts specialised to the initial state of `init`. -/
theorem extractFold_props (stream : List Nat) :
    (extractFold stream).2.Nodup ∧
      (∀ j, (extractFold stream).1 j = 0 ↔ j ∉ (extractFold stream).2) ∧
      (∀ j, (extractFold stream).1 j = stream.count j) ∧
      (∀ j, j ∈ (extractFold stream).2 ↔ j ∈ stream) ∧
      ((extractFold stream).2.map (extractFold stream).1).sum = stream.length := by
  obtain ⟨i1, i2, i3, i4, i5⟩ := extractFold_invariant stream (fun _ => 0) []
    List.nodup_nil (by intro j; simp)
  unfold extractFold
  refine ⟨i1, i2, ?_, ?_, ?_⟩
  · intro j
    rw [i3 j]
    omega
  · intro j
    rw [i4 j]
    simp
  · rw [i5]
    simp

/- ### Well-formedness of the extracted patterns -/

theorem getD_mem_of_lt (l : List Nat) (i : Nat) (h : i < l.length) :
    l.getD i 0 ∈ l := by
  rw [List.getD_eq_getElem?_getD, List.getElem?_eq_getElem h]
  exact List.getElem_mem h

theorem ords_invariant (input : List Nat) (s c : List Nat)
    (h : ∀ e ∈ s, e < c.length) :
    (∀ e ∈ (input.foldl ordsStep (s, c)).1,
        e < (input.foldl ordsStep (s, c)).2.length) ∧
      (input.foldl ordsStep (s, c)).1.length = s.length + input.length := by
  induction input generalizing s c with
  | nil => exact ⟨h, by simp⟩
  | cons px rest ih =>
    rw [List.foldl_cons]
    by_cases hm : px ∈ c
    · have hstep : ordsStep (s, c) px = (s ++ [c.indexOf px], c) := by
        unfold ordsStep
        rw [if_pos hm]
      rw [hstep]
      have h' : ∀ e ∈ s ++ [c.indexOf px], e < c.length := by
        intro e he
        rcases List.mem_append.mp he with he | he
        · exact h e he
        · rcases List.mem_singleton.mp he with rfl
          exact List.indexOf_lt_length.mpr hm
      obtain ⟨g1, g2⟩ := ih _ _ h'
      refine ⟨g1, ?_⟩
      rw [g2]
      simp
      omega
    · have hstep : ordsStep (s, c) px = (s ++ [c.length], c ++ [px]) := by
        unfold ordsStep
        rw [if_neg hm]
      rw [hstep]
      have h' : ∀ e ∈ s ++ [c.length], e < (c ++ [px]).length := by
        intro e he
        rw [List.length_append, List.length_singleton]
        rcases List.mem_append.mp he with he | he
        · exact Nat.lt_succ_of_lt (h e he)
        · rcases List.mem_singleton.mp he with rfl
          exact Nat.lt_succ_self _
      obtain ⟨g1, g2⟩ := ih _ _ h'
      refine ⟨g1, ?_⟩
      rw [g2]
      simp
      omega

/-- Every entry of the palette-indexed sample is a valid palette index. -/
theorem ords_sample_lt (input : List Nat) :
    ∀ e ∈ (ords input).1, e < (ords input).2.length :=
  (ords_invariant input [] [] (by intro e he; cases he)).1

/-- The sample has one entry per exemplar pixel. -/
theorem ords_sample_length (input : List Nat) :
    (ords input).1.length = input.length := by
  have := (ords_invariant input [] [] (by intro e he; cases he)).2
  simpa using this

/-- A pattern is well formed when it has `N²` cells, each a palette index. -/
def goodPat (C N : Nat) (p : List Nat) : Prop :=
  p.length = N * N ∧ ∀ e ∈ p, e < C

theorem patternAt_good (C iW iH N x y : Nat) (sample : List Nat)
    (hsam : ∀ e ∈ sample, e < C) (hlen : sample.length = iW * iH)
    (hiW : 0 < iW) (hiH : 0 < iH) :
    goodPat C N (patternAt sample iW iH N x y) := by
  constructor
  · simp [patternAt]
  · intro e he
    unfold patternAt at he
    rcases List.mem_map.mp he with ⟨i, _, rfl⟩
    apply hsam
    apply getD_mem_of_lt
    rw [hlen]
    have h1 : (x + i % N) % iW < iW := Nat.mod_lt _ hiW
    have h2 : (y + i / N) % iH < iH := Nat.mod_lt _ hiH
    calc (x + i % N) % iW + (y + i / N) % iH * iW
        < iW + (y + i / N) % iH * iW := by omega
    _ = ((y + i / N) % iH + 1) * iW := by ring
    _ ≤ iH * iW := Nat.mul_le_mul_right _ (by omega)
    _ = iW * iH := Nat.mul_comm _ _

theorem rotated_good (C N : Nat) (q : List Nat) (hq : goodPat C N q) :
    goodPat C N (rotated N q) := by
  obtain ⟨hlen, hent⟩ := hq
  constructor
  · simp [rotated]
  · intro e he
    unfold rotated at he
    rcases List.mem_map.mp he with ⟨i, hi, rfl⟩
    rw [List.mem_range] at hi
    have hN : 0 < N := by
      rcases Nat.eq_zero_or_pos N with h0 | h0
      · subst h0; simp at hi
      · exact h0
    apply hent
    apply getD_mem_of_lt
    rw [hlen]
    have h1 : N - 1 - i / N < N := Nat.lt_of_le_of_lt (Nat.sub_le _ _) (by omega)
    have h2 : i % N < N := Nat.mod_lt _ hN
    calc N - 1 - i / N + i % N * N
        < N + i % N * N := by omega
    _ = (i % N + 1) * N := by ring
    _ ≤ N * N := Nat.mul_le_mul_right _ (by omega)

theorem reflected_good (C N : Nat) (q : List Nat) (hq : goodPat C N q) :
    goodPat C N (reflected N q) := by
  obtain ⟨hlen, hent⟩ := hq
  constructor
  · simp [reflected]
  · intro e he
    unfold reflected at he
    rcases List.mem_map.mp he with ⟨i, hi, rfl⟩
    rw [List.mem_range] at hi
    have hN : 0 < N := by
      rcases Nat.eq_zero_or_pos N with h0 | h0
      · subst h0; simp at hi
      · exact h0
    apply hent
    apply getD_mem_of_lt
    rw [hlen]
    have h1 : N - 1 - i % N < N := Nat.lt_of_le_of_lt (Nat.sub_le _ _) (by omega)
    have h2 : i / N < N := by
      rw [Nat.div_lt_iff_lt_mul hN]
      exact Nat.lt_of_lt_of_le hi (Nat.le_of_eq (Nat.mul_comm N N))
    calc N - 1 - i % N + i / N * N
        < N + i / N * N := by omega
    _ = (i / N + 1) * N := by ring
    _ ≤ N * N := Nat.mul_le_mul_right _ (by omega)

theorem squareSymmetries_good (C N sym : Nat) (t : List Nat)
    (ht : goodPat C N t) :
    ∀ p ∈ squareSymmetries N sym t, goodPat C N p := by
  intro p hp
  have hp8 := List.take_subset sym _ hp
  have r1 := rotated_good C N t ht
  have r2 := rotated_good C N _ r1
  have r3 := rotated_good C N _ r2
  fin_cases hp8
  · exact ht
  · exact r1
  · exact r2
  · exact r3
  · exact reflected_good C N t ht
  · exact reflected_good C N _ r1
  · exact reflected_good C N _ r2
  · exact reflected_good C N _ r3

/-- Every fingerprint in the extraction stream is the fingerprint of some
well-formed pattern. -/
theorem fpStream_elem_spec (C iW iH N sym xmax ymax : Nat) (sample : List Nat)
    (hsam : ∀ e ∈ sample, e < C) (hlen : sample.length = iW * iH)
    (hiW : 0 < iW) (hiH : 0 < iH) :
    ∀ fp ∈ fpStream C iW iH N sym xmax ymax sample,
      ∃ p, goodPat C N p ∧ fp = fingerprint C p := by
  intro fp hfp
  unfold fpStream at hfp
  rcases List.mem_flatten.mp hfp with ⟨row, hrow, hfp⟩
  rcases List.mem_map.mp hrow with ⟨y, _, rfl⟩
  rcases List.mem_flatten.mp hfp with ⟨cell, hcell, hfp⟩
  rcases List.mem_map.mp hcell with ⟨x, _, rfl⟩
  unfold originFPs at hfp
  rcases List.mem_map.mp hfp with ⟨p, hpmem, rfl⟩
  refine ⟨p, ?_, rfl⟩
  exact squareSymmetries_good C N sym _
    (patternAt_good C iW iH N x y sample hsam hlen hiW hiH) p hpmem

theorem sum_map_const (n c : Nat) :
    ((List.range n).map (fun _ => c)).sum = n * c := by
  induction n with
  | zero => simp
  | succ n ih =>
    rw [List.range_succ, List.map_append, List.sum_append, ih]
    simp
    ring

/-- The extraction stream has exactly one entry per (origin, variant)
pair: `ymax · xmax · min(symmetry, 8)` entries. -/
theorem fpStream_length (C iW iH N sym xmax ymax : Nat) (sample : List Nat) :
    (fpStream C iW iH N sym xmax ymax sample).length =
      ymax * (xmax * min sym 8) := by
  unfold fpStream
  rw [List.length_flatten, List.map_map]
  have hinner : ∀ y : Nat,
      (((List.range xmax).map fun x =>
        originFPs C iW iH N sym sample x y).flatten).length = xmax * min sym 8 := by
    intro y
    rw [List.length_flatten, List.map_map]
    have : ∀ x : Nat,
        (originFPs C iW iH N sym sample x y).length = min sym 8 := by
      intro x
      unfold originFPs squareSymmetries
      rw [List.length_map, List.length_take]
      rfl
    calc ((List.range xmax).map fun x =>
          (originFPs C iW iH N sym sample x y).length).sum
        = ((List.range xmax).map fun _ => min sym 8).sum := by
          apply congrArg
          apply List.map_congr_left
          intro x _
          exact this x
    _ = xmax * min sym 8 := sum_map_const _ _
  calc ((List.range ymax).map fun y =>
        (((List.range xmax).map fun x =>
          originFPs C iW iH N sym sample x y).flatten).length).sum
      = ((List.range ymax).map fun _ => xmax * min sym 8).sum := by
        apply congrArg
        apply List.map_congr_left
        intro y _
        exact hinner y
  _ = ymax * (xmax * min sym 8) := sum_map_const _ _

/- ### Claims about the pattern table produced by `init` -/

theorem init_patterns_eq (iW iH N sym : Nat) (per : Bool) (input : List Nat) :
    (init iW iH N sym per input).patterns =
      ((extractFold (fpStream (ords input).2.length iW iH N sym
          (xmaxOf per iW N) (xmaxOf per iH N) (ords input).1)).2).map
        (fun w => patternFromIndex (ords input).2.length
          (computeW (ords input).2.length (N * N)) w (N * N)) := rfl

theorem init_weights_eq (iW iH N sym : Nat) (per : Bool) (input : List Nat) :
    (init iW iH N sym per input).weights =
      ((extractFold (fpStream (ords input).2.length iW iH N sym
          (xmaxOf per iW N) (xmaxOf per iH N) (ords input).1)).2).map
        (extractFold (fpStream (ords input).2.length iW iH N sym
          (xmaxOf per iW N) (xmaxOf per iH N) (ords input).1)).1 := rfl

theorem init_P_eq (iW iH N sym : Nat) (per : Bool) (input : List Nat) :
    (init iW iH N sym per input).P =
      ((extractFold (fpStream (ords input).2.length iW iH N sym
          (xmaxOf per iW N) (xmaxOf per iH N) (ords input).1)).2).length := rfl

/-- **C6.** After `init` completes on a well-formed exemplar (with at most
256 colors, as the palette indices are `uint8_t`, and no overflow of the
fingerprint width): the pattern table has no two entries with equal
content, `weights` has length `P` equal to the number of distinct
fingerprints, and every weight is strictly positive. -/
theorem claim_C6_pattern_table (iW iH N sym : Nat) (per : Bool)
    (input : List Nat) (hiW : 0 < iW) (hiH : 0 < iH)
    (hlen : input.length = iW * iH) (h256 : (ords input).2.length ≤ 256)
    (hW : (ords input).2.length ^ (N * N) < SIZE_MOD) :
    (init iW iH N sym per input).patterns.Nodup ∧
      (init iW iH N sym per input).weights.length =
        (init iW iH N sym per input).P ∧
      (init iW iH N sym per input).P =
        (fpStream (ords input).2.length iW iH N sym (xmaxOf per iW N)
          (xmaxOf per iH N) (ords input).1).toFinset.card ∧
      ∀ w ∈ (init iW iH N sym per input).weights, 0 < w := by
  obtain ⟨i1, i2, i3, i4, i5⟩ := extractFold_props
    (fpStream (ords input).2.length iW iH N sym (xmaxOf per iW N)
      (xmaxOf per iH N) (ords input).1)
  have hspec := fpStream_elem_spec (ords input).2.length iW iH N sym
    (xmaxOf per iW N) (xmaxOf per iH N) (ords input).1
    (ords_sample_lt input) (by rw [ords_sample_length]; exact hlen) hiW hiH
  have hdecode : ∀ p, goodPat (ords input).2.length N p →
      patternFromIndex (ords input).2.length
        (computeW (ords input).2.length (N * N)) (fingerprint (ords input).2.length p)
        (N * N) = p := by
    intro p hp
    rw [← hp.1]
    exact patternFromIndex_fingerprint (ords input).2.length p hp.2
      (fun e he => Nat.lt_of_lt_of_le (hp.2 e he) h256)
      (by rw [hp.1]; exact hW)
  refine ⟨?_, ?_, ?_, ?_⟩
  · rw [init_patterns_eq]
    apply List.Nodup.map_on _ i1
    intro x hx y hy hxy
    obtain ⟨px, hpx, rfl⟩ := hspec x ((i4 x).mp hx)
    obtain ⟨py, hpy, rfl⟩ := hspec y ((i4 y).mp hy)
    rw [hdecode px hpx, hdecode py hpy] at hxy
    rw [hxy]
  · rw [init_weights_eq, init_P_eq, List.length_map]
  · rw [init_P_eq]
    have hsets : (extractFold (fpStream (ords input).2.length iW iH N sym
        (xmaxOf per iW N) (xmaxOf per iH N) (ords input).1)).2.toFinset =
        (fpStream (ords input).2.length iW iH N sym (xmaxOf per iW N)
          (xmaxOf per iH N) (ords input).1).toFinset := by
      apply Finset.ext
      intro j
      rw [List.mem_toFinset, List.mem_toFinset, i4 j]
    rw [← hsets, List.toFinset_card_of_nodup i1]
  · intro w hw
    rw [init_weights_eq] at hw
    rcases List.mem_map.mp hw with ⟨j, hj, rfl⟩
    have : ¬ ((extractFold (fpStream (ords input).2.length iW iH N sym
        (xmaxOf per iW N) (xmaxOf per iH N) (ords input).1)).1 j = 0) := by
      intro h0
      exact (i2 j).mp h0 hj
    omega

/-- Witness for C6 on the 2×2 checkerboard exemplar with `N = 2`. -/
theorem claim_C6_pattern_table_witness :
    ([0, 1, 1, 0] : List Nat).length = 2 * 2 ∧
      (init 2 2 2 1 true [0, 1, 1, 0]).patterns.Nodup ∧
      (init 2 2 2 1 true [0, 1, 1, 0]).weights.length =
        (init 2 2 2 1 true [0, 1, 1, 0]).P ∧
      (init 2 2 2 1 true [0, 1, 1, 0]).P =
        (fpStream (ords [0, 1, 1, 0]).2.length 2 2 2 1 (xmaxOf true 2 2)
          (xmaxOf true 2 2) (ords [0, 1, 1, 0]).1).toFinset.card ∧
      ∀ w ∈ (init 2 2 2 1 true [0, 1, 1, 0]).weights, 0 < w :=
  ⟨by decide,
   claim_C6_pattern_table 2 2 2 1 true [0, 1, 1, 0] (by decide) (by decide)
     (by decide) (by decide) (by decide)⟩

/-- **C7.** `Σ weights[i]` equals the total number of (origin, variant)
pairs enumerated during extraction — one fingerprint per pair, with
origins ranging over `[0, xmax) × [0, ymax)` — and in particular is at
most `symmetry · xmax · ymax`. -/
theorem claim_C7_weight_conservation (iW iH N sym : Nat) (per : Bool)
    (input : List Nat) :
    (init iW iH N sym per input).weights.sum =
      (fpStream (ords input).2.length iW iH N sym (xmaxOf per iW N)
        (xmaxOf per iH N) (ords input).1).length ∧
    (init iW iH N sym per input).weights.sum ≤
      sym * (xmaxOf per iW N * xmaxOf per iH N) := by
  obtain ⟨_, _, _, _, i5⟩ := extractFold_props
    (fpStream (ords input).2.length iW iH N sym (xmaxOf per iW N)
      (xmaxOf per iH N) (ords input).1)
  have hs : (init iW iH N sym per input).weights.sum =
      (fpStream (ords input).2.length iW iH N sym (xmaxOf per iW N)
        (xmaxOf per iH N) (ords input).1).length := by
    rw [init_weights_eq, i5]
  refine ⟨hs, ?_⟩
  rw [hs, fpStream_length]
  have hmin : min sym 8 ≤ sym := Nat.min_le_left _ _
  calc xmaxOf per iH N * (xmaxOf per iW N * min sym 8)
      = (xmaxOf per iW N * xmaxOf per iH N) * min sym 8 := by ring
  _ ≤ (xmaxOf per iW N * xmaxOf per iH N) * sym :=
      Nat.mul_le_mul_left _ hmin
  _ = sym * (xmaxOf per iW N * xmaxOf per iH N) := Nat.mul_comm _ _

/- ### C2: `init` performs no configuration validation -/

/-- `ConfigurationError` as the spec describes it.  Modelled from the
spec: no such error kind exists anywhere in the source — `init` is
`noexcept` and returns `void` — so the type only serves to state the
spec-side behaviour that the claim attributes to the code. -/
inductive ConfigurationError where
  | overflow : ConfigurationError
  | exemplarTooSmall : ConfigurationError
deriving DecidableEq

/-- Modelled from the spec: the validating extractor the spec describes —
fail with `ConfigurationError` when `C^(N²)` would overflow the
fingerprint width, or when the exemplar is smaller than `N×N` and
`periodic_input` is false; otherwise produce the table `init` builds. -/
def initSpec (iW iH N sym : Nat) (periodicInput : Bool) (input : List Nat) :
    Except ConfigurationError InitResult :=
  if SIZE_MOD ≤ (ords input).2.length ^ (N * N) then
    .error .overflow
  else if ¬periodicInput ∧ (iW < N ∨ iH < N) then
    .error .exemplarTooSmall
  else
    .ok (init iW iH N sym periodicInput input)

/-- **C2 (counterexample).** A 2×2 exemplar with `N = 3` and
`periodic_input = false` is smaller than `N×N`, so the claim demands a
`ConfigurationError` and no pattern table; the code's `init` — which is
`noexcept` and validates nothing — completes normally and produces a
(here empty) pattern table. -/
theorem claim_C2_counterexample :
    initSpec 2 2 3 1 false [7, 7, 7, 7] =
        .error ConfigurationError.exemplarTooSmall ∧
      init 2 2 3 1 false [7, 7, 7, 7] =
        ⟨[7], 0, [], [], [[], [], [], []]⟩ := by
  constructor
  · rfl
  · rfl

/-- **C2 (amended).** `init` performs no validation and cannot fail: it
is `noexcept` with no error channel.  When `periodic_input` is false and
an exemplar dimension is exactly `N − 1` (so the `size_t` expression
`i_W − N + 1` wraps to zero), the origin range is empty and `init`
completes normally with an empty pattern table (`P = 0`); no
`ConfigurationError` is raised. -/
theorem claim_C2_amended_no_validation (iW iH N sym : Nat) (input : List Nat)
    (hiW : iW + 1 = N) (hsz : N ≤ SIZE_MOD) :
    (init iW iH N sym false input).P = 0 ∧
      (init iW iH N sym false input).patterns = [] := by
  have hx : xmaxOf false iW N = 0 := by
    have hM : SIZE_MOD = 18446744073709551616 := by norm_num [SIZE_MOD]
    unfold xmaxOf sizeSub
    rw [hM] at hsz ⊢
    simp only [Bool.false_eq_true, if_false]
    omega
  have hstream : fpStream (ords input).2.length iW iH N sym
      (xmaxOf false iW N) (xmaxOf false iH N) (ords input).1 = [] := by
    rw [hx]
    unfold fpStream
    simp
  constructor
  · rw [init_P_eq, hstream]
    rfl
  · rw [init_patterns_eq, hstream]
    rfl

/-- Witness for the amended C2 at `i_W = i_H = 2`, `N = 3`. -/
theorem claim_C2_amended_no_validation_witness :
    (2 + 1 = 3 ∧ 3 ≤ SIZE_MOD) ∧
      (init 2 2 3 1 false [7, 7, 7, 7]).P = 0 ∧
      (init 2 2 3 1 false [7, 7, 7, 7]).patterns = [] :=
  ⟨⟨by decide, by norm_num [SIZE_MOD]⟩,
   claim_C2_amended_no_validation 2 2 3 1 [7, 7, 7, 7] (by decide)
     (by norm_num [SIZE_MOD])⟩

/- ### The output decoder `get_output` -/

/-- The clamp threshold `MX - N + 1` of `get_output` (lines 215 and 218),
in `size_t` arithmetic. -/
def clampThreshold (M N : Nat) : Nat := (sizeSub M N + 1) % SIZE_MOD

/-- `int dx = x < MX - N + 1 ? 0 : N - 1;` (and `dy` likewise). -/
def dxAt (M N v : Nat) : Nat := if v < clampThreshold M N then 0 else N - 1

/-- The `ob` search of `get_output` (lines 220-226): the first pattern
still possible at the cell, scanning pattern indices in increasing order.
The wave of the `WFC` base class (not in the snapshot) is modelled as the
boolean function `waveGet` over (flat cell index, pattern). -/
def firstPossible (P : Nat) (waveGet : Nat → Nat → Bool) (cell : Nat) :
    Option Nat :=
  (List.range P).find? fun p => waveGet cell p

/-- One pixel of `get_output` (lines 214-242): clamp offsets, search for
the first possible pattern, fall back to pattern 0 when none is left, and
split the packed 24-bit color into `(R, G, B)` bytes.  The second
component records whether the `ob < 0` fallback fired for this pixel. -/
def outPixel (MX MY N P : Nat) (patterns : List (List Nat))
    (colors : List Nat) (waveGet : Nat → Nat → Bool) (x y : Nat) :
    (Nat × Nat × Nat) × Bool :=
  let dy := dxAt MY N y
  let dx := dxAt MX N x
  let ob? := firstPossible P waveGet (x - dx + (y - dy) * MX)
  let ob := ob?.getD 0
  let colorIndex := (patterns.getD ob []).getD (dx + dy * N) 0
  let color := colors.getD colorIndex 0
  ((color >>> 16 &&& 255, (color >>> 8 &&& 255, color &&& 255)), ob?.isNone)

/-- `OverlappingWFC::get_output` (lines 209-250).  The first component is
the full `MX × MY` color grid (row-major); the second is the `sus` flag —
the `std::cerr` diagnostic ("called on contradicted wfc") is emitted
exactly when this flag is true, and the grid is returned regardless. -/
def get_output (MX MY N P : Nat) (patterns : List (List Nat))
    (colors : List Nat) (waveGet : Nat → Nat → Bool) :
    List (List (Nat × Nat × Nat)) × Bool :=
  ((List.range MY).map fun y => (List.range MX).map fun x =>
      (outPixel MX MY N P patterns colors waveGet x y).1,
   (List.range MY).any fun y => (List.range MX).any fun x =>
      (outPixel MX MY N P patterns colors waveGet x y).2)

theorem get_output_pixel (MX MY N P : Nat) (patterns : List (List Nat))
    (colors : List Nat) (waveGet : Nat → Nat → Bool) (x y : Nat)
    (hx : x < MX) (hy : y < MY) :
    ((get_output MX MY N P patterns colors waveGet).1.getD y []).getD x
        (0, 0, 0) = (outPixel MX MY N P patterns colors waveGet x y).1 := by
  unfold get_output
  have h1 : ((List.range MY).map fun y => (List.range MX).map fun x =>
      (outPixel MX MY N P patterns colors waveGet x y).1).getD y [] =
      (List.range MX).map fun x =>
        (outPixel MX MY N P patterns colors waveGet x y).1 := by
    rw [List.getD_eq_getElem?_getD, List.getElem?_map, List.getElem?_range hy]
    rfl
  rw [h1, List.getD_eq_getElem?_getD, List.getElem?_map, List.getElem?_range hx]
  rfl

/-- **C9.** For every wave state, `get_output` returns a full `MX × MY`
color grid; if some pixel's cell has zero still-possible patterns at
decode time, the decoder substitutes pattern 0 there, raises the `sus`
flag (on which the diagnostic is reported), and still returns the grid. -/
theorem claim_C9_decoder_total_on_contradiction (MX MY N P : Nat)
    (patterns : List (List Nat)) (colors : List Nat)
    (waveGet : Nat → Nat → Bool) :
    (get_output MX MY N P patterns colors waveGet).1.length = MY ∧
      (∀ row ∈ (get_output MX MY N P patterns colors waveGet).1,
        row.length = MX) ∧
      ∀ x y, x < MX → y < MY →
        firstPossible P waveGet
          (x - dxAt MX N x + (y - dxAt MY N y) * MX) = none →
        (get_output MX MY N P patterns colors waveGet).2 = true ∧
        ((get_output MX MY N P patterns colors waveGet).1.getD y []).getD x
            (0, 0, 0) =
          ((colors.getD ((patterns.getD 0 []).getD
              (dxAt MX N x + dxAt MY N y * N) 0) 0) >>> 16 &&& 255,
           ((colors.getD ((patterns.getD 0 []).getD
              (dxAt MX N x + dxAt MY N y * N) 0) 0) >>> 8 &&& 255,
            (colors.getD ((patterns.getD 0 []).getD
              (dxAt MX N x + dxAt MY N y * N) 0) 0) &&& 255)) := by
  refine ⟨?_, ?_, ?_⟩
  · simp [get_output]
  · intro row hrow
    unfold get_output at hrow
    rcases List.mem_map.mp hrow with ⟨y, _, rfl⟩
    simp
  · intro x y hx hy hnone
    constructor
    · unfold get_output
      simp only [List.any_eq_true, List.mem_range]
      refine ⟨y, hy, x, hx, ?_⟩
      simp only [outPixel]
      rw [hnone]
      rfl
    · rw [get_output_pixel MX MY N P patterns colors waveGet x y hx hy]
      simp only [outPixel]
      rw [hnone]
      rfl

/-- Witness for C9: a fully contradicted 1×1 wave. -/
theorem claim_C9_decoder_total_on_contradiction_witness :
    (0 : Nat) < 1 ∧
      ((get_output 1 1 1 1 [[0]] [66051] (fun _ _ => false)).1.length = 1 ∧
        (∀ row ∈ (get_output 1 1 1 1 [[0]] [66051] (fun _ _ => false)).1,
          row.length = 1) ∧
        ∀ x y, x < 1 → y < 1 →
          firstPossible 1 (fun _ _ => false)
            (x - dxAt 1 1 x + (y - dxAt 1 1 y) * 1) = none →
          (get_output 1 1 1 1 [[0]] [66051] (fun _ _ => false)).2 = true ∧
          ((get_output 1 1 1 1 [[0]] [66051]
              (fun _ _ => false)).1.getD y []).getD x (0, 0, 0) =
            ((([66051].getD (([[0]].getD 0 []).getD
                (dxAt 1 1 x + dxAt 1 1 y * 1) 0) 0) : Nat) >>> 16 &&& 255,
             ((([66051].getD (([[0]].getD 0 []).getD
                (dxAt 1 1 x + dxAt 1 1 y * 1) 0) 0) : Nat) >>> 8 &&& 255,
              (([66051].getD (([[0]].getD 0 []).getD
                (dxAt 1 1 x + dxAt 1 1 y * 1) 0) 0) : Nat) &&& 255))) :=
  ⟨by decide,
   claim_C9_decoder_total_on_contradiction 1 1 1 1 [[0]] [66051]
     (fun _ _ => false)⟩

theorem clampThreshold_eq (M N : Nat) (hN : 0 < N) (hNM : N ≤ M)
    (hM : M < SIZE_MOD) : clampThreshold M N = M - N + 1 := by
  have hS : SIZE_MOD = 18446744073709551616 := by norm_num [SIZE_MOD]
  unfold clampThreshold sizeSub
  rw [hS] at hM ⊢
  have hN64 : N < 18446744073709551616 := Nat.lt_of_le_of_lt hNM hM
  have hmod : N % 18446744073709551616 = N := Nat.mod_eq_of_lt hN64
  rw [hmod]
  have h1 : M + (18446744073709551616 - N) = 18446744073709551616 + (M - N) := by
    omega
  rw [h1, Nat.add_mod_left]
  have h2 : (M - N) % 18446744073709551616 = M - N :=
    Nat.mod_eq_of_lt (by omega)
  rw [h2]
  exact Nat.mod_eq_of_lt (by omega)

theorem byte_split (c : Nat) :
    ((c >>> 16 &&& 255 : Nat), ((c >>> 8 &&& 255 : Nat), (c &&& 255 : Nat))) =
      (c / 65536 % 256, (c / 256 % 256, c % 256)) := by
  have h255 : (255 : Nat) = 2 ^ 8 - 1 := by norm_num
  rw [Nat.shiftRight_eq_div_pow, Nat.shiftRight_eq_div_pow, h255,
    Nat.and_pow_two_sub_one_eq_mod, Nat.and_pow_two_sub_one_eq_mod,
    Nat.and_pow_two_sub_one_eq_mod]

/-- **C8 (counterexample).** With `MX = 6`, `MY = 3`, `N = 3` the output
pixel `(4, 0)` lies beyond the last valid cell (wave width is
`6 − 3 + 1 = 4`).  The decoder computes `dx = N − 1 = 2` and reads cell
`x − dx = 2`, not the last valid cell `(3, 0)` at internal offset
`(x − 3, y − 0) = (1, 0)` that the claim prescribes: with pattern 1 (all
ones) alone possible at cell 2 and pattern 0 (all zeros) alone possible
everywhere else, the decoder yields color 20 whereas the claim's reading
would yield color 10. -/
theorem claim_C8_counterexample :
    ((get_output 6 3 3 2
        [[0, 0, 0, 0, 0, 0, 0, 0, 0], [1, 1, 1, 1, 1, 1, 1, 1, 1]] [10, 20]
        (fun cell p => if cell = 2 then p == 1 else p == 0)).1.getD 0 []).getD 4
        (0, 0, 0) = (0, (0, 20)) ∧
      [10, 20].getD (([[0, 0, 0, 0, 0, 0, 0, 0, 0],
          [1, 1, 1, 1, 1, 1, 1, 1, 1]].getD
        ((firstPossible 2 (fun cell p => if cell = 2 then p == 1 else p == 0)
          (3 + 0 * 6)).getD 0) []).getD (1 + 0 * 3) 0) 0 = 10 ∧
      ((0, (0, 20)) : Nat × Nat × Nat) ≠ (0, (0, 10)) := by
  refine ⟨?_, ?_, ?_⟩ <;> decide

/-- **C8 (amended).** In the non-periodic case, for every in-range output
pixel `(x, y)` (with `0 < N ≤ MX, MY < 2^64`): the decoder uses
`dx = 0` if `x < MX − N + 1` else `N − 1`, reads the cell `(x − dx, y − dy)`
(so only the bottom-right pixel reads the last valid cell; other clamped
pixels read the cell `x − N + 1`), and the pixel equals
`palette[patterns[p][dx + dy·N]]` split into channels with R the high
byte, G the middle byte and B the low byte of the packed 24-bit color. -/
theorem claim_C8_amended_decoder_pixel (MX MY N P : Nat)
    (patterns : List (List Nat)) (colors : List Nat)
    (waveGet : Nat → Nat → Bool) (x y : Nat)
    (hx : x < MX) (hy : y < MY) (hN : 0 < N) (hNMX : N ≤ MX) (hNMY : N ≤ MY)
    (hMXsz : MX < SIZE_MOD) (hMYsz : MY < SIZE_MOD) :
    ((get_output MX MY N P patterns colors waveGet).1.getD y []).getD x
        (0, 0, 0) =
      (let dx := if x < MX - N + 1 then 0 else N - 1
       let dy := if y < MY - N + 1 then 0 else N - 1
       let p := (firstPossible P waveGet (x - dx + (y - dy) * MX)).getD 0
       let color := colors.getD ((patterns.getD p []).getD (dx + dy * N) 0) 0
       (color / 65536 % 256, (color / 256 % 256, color % 256))) := by
  rw [get_output_pixel MX MY N P patterns colors waveGet x y hx hy]
  simp only [outPixel]
  have hdx : dxAt MX N x = if x < MX - N + 1 then 0 else N - 1 := by
    unfold dxAt
    rw [clampThreshold_eq MX N hN hNMX hMXsz]
  have hdy : dxAt MY N y = if y < MY - N + 1 then 0 else N - 1 := by
    unfold dxAt
    rw [clampThreshold_eq MY N hN hNMY hMYsz]
  rw [hdx, hdy, byte_split]

/-- Witness for the amended C8 at the counterexample's configuration,
pixel `(4, 0)`. -/
theorem claim_C8_amended_decoder_pixel_witness :
    (4 < 6 ∧ 0 < 3 ∧ 3 ≤ 6 ∧ (6 : Nat) < SIZE_MOD) ∧
      ((get_output 6 3 3 2
          [[0, 0, 0, 0, 0, 0, 0, 0, 0], [1, 1, 1, 1, 1, 1, 1, 1, 1]] [10, 20]
          (fun cell p => if cell = 2 then p == 1 else p == 0)).1.getD 0
          []).getD 4 (0, 0, 0) =
        (let dx := if 4 < 6 - 3 + 1 then 0 else 3 - 1
         let dy := if 0 < 3 - 3 + 1 then 0 else 3 - 1
         let p := (firstPossible 2
           (fun cell p => if cell = 2 then p == 1 else p == 0)
           (4 - dx + (0 - dy) * 6)).getD 0
         let color := [10, 20].getD
           (([[0, 0, 0, 0, 0, 0, 0, 0, 0],
              [1, 1, 1, 1, 1, 1, 1, 1, 1]].getD p []).getD (dx + dy * 3) 0) 0
         (color / 65536 % 256, (color / 256 % 256, color % 256))) :=
  ⟨⟨by decide, by decide, by decide, by norm_num [SIZE_MOD]⟩,
   claim_C8_amended_decoder_pixel 6 3 3 2
     [[0, 0, 0, 0, 0, 0, 0, 0, 0], [1, 1, 1, 1, 1, 1, 1, 1, 1]] [10, 20]
     (fun cell p => if cell = 2 then p == 1 else p == 0) 4 0
     (by decide) (by decide) (by decide) (by decide) (by decide)
     (by norm_num [SIZE_MOD]) (by norm_num [SIZE_MOD])⟩

/- ### C10: bounds safety of decode and output lookups -/

theorem decodeDigits_length (C : Nat) :
    ∀ (n W r : Nat), (decodeDigits C n W r).length = n := by
  intro n
  induction n with
  | zero => intro W r; rfl
  | succ n ih =>
    intro W r
    rw [decodeDigits, List.length_cons, ih]

theorem getD_mem_of_lt_gen {α : Type} (l : List α) (d : α) (i : Nat)
    (h : i < l.length) : l.getD i d ∈ l := by
  rw [List.getD_eq_getElem?_getD, List.getElem?_eq_getElem h]
  exact List.getElem_mem h

/-- **C10.** Every entry written by `patternFromIndex` on a fingerprint
`ind < C^(N²)` is strictly below `C = colors.size()`; consequently, for a
pattern table obtained from such decodes, the decoder's lookups
`patterns[ob][dx + dy·N]` and `colors[colorIndex]` are in bounds for
every pixel of every wave state. -/
theorem claim_C10_decode_and_output_bounds (C N MX MY : Nat)
    (colors : List Nat) (patterns : List (List Nat))
    (waveGet : Nat → Nat → Bool)
    (hC : C = colors.length) (hC0 : 0 < C) (hN : 0 < N)
    (hpats : ∀ q ∈ patterns, ∃ ind, ind < C ^ (N * N) ∧
      q = patternFromIndex C (C ^ (N * N)) ind (N * N))
    (hP0 : 0 < patterns.length) :
    (∀ ind, ind < C ^ (N * N) →
      ∀ e ∈ patternFromIndex C (C ^ (N * N)) ind (N * N), e < C) ∧
    ∀ x y : Nat,
      (firstPossible patterns.length waveGet
          (x - dxAt MX N x + (y - dxAt MY N y) * MX)).getD 0 <
        patterns.length ∧
      dxAt MX N x + dxAt MY N y * N <
        (patterns.getD ((firstPossible patterns.length waveGet
          (x - dxAt MX N x + (y - dxAt MY N y) * MX)).getD 0) []).length ∧
      (patterns.getD ((firstPossible patterns.length waveGet
          (x - dxAt MX N x + (y - dxAt MY N y) * MX)).getD 0) []).getD
        (dxAt MX N x + dxAt MY N y * N) 0 < colors.length := by
  have hdecode : ∀ ind, ind < C ^ (N * N) →
      ∀ e ∈ patternFromIndex C (C ^ (N * N)) ind (N * N), e < C := by
    intro ind hind
    exact decodeDigits_entries_lt C hC0 (N * N) ind hind
  refine ⟨hdecode, ?_⟩
  intro x y
  have hob : (firstPossible patterns.length waveGet
      (x - dxAt MX N x + (y - dxAt MY N y) * MX)).getD 0 < patterns.length := by
    rcases hfp : firstPossible patterns.length waveGet
        (x - dxAt MX N x + (y - dxAt MY N y) * MX) with _ | p
    · simpa using hP0
    · have hmem := List.mem_of_find?_eq_some hfp
      rw [List.mem_range] at hmem
      simpa using hmem
  have hq : patterns.getD ((firstPossible patterns.length waveGet
      (x - dxAt MX N x + (y - dxAt MY N y) * MX)).getD 0) [] ∈ patterns :=
    getD_mem_of_lt_gen patterns [] _ hob
  obtain ⟨ind, hind, hqeq⟩ := hpats _ hq
  have hqlen : (patterns.getD ((firstPossible patterns.length waveGet
      (x - dxAt MX N x + (y - dxAt MY N y) * MX)).getD 0) []).length = N * N := by
    rw [hqeq]
    exact decodeDigits_length C (N * N) _ _
  have hdxb : dxAt MX N x ≤ N - 1 := by
    unfold dxAt
    split <;> omega
  have hdyb : dxAt MY N y ≤ N - 1 := by
    unfold dxAt
    split <;> omega
  obtain ⟨m, rfl⟩ : ∃ m, N = m + 1 := ⟨N - 1, by omega⟩
  have hkey : m * (m + 1) + (m + 1) = (m + 1) * (m + 1) := by ring
  have hmul : dxAt MY (m + 1) y * (m + 1) ≤ m * (m + 1) :=
    Nat.mul_le_mul_right _ (by omega)
  have hidx : dxAt MX (m + 1) x + dxAt MY (m + 1) y * (m + 1) <
      (m + 1) * (m + 1) := by omega
  refine ⟨hob, ?_, ?_⟩
  · rw [hqlen]
    exact hidx
  · have hentry := hdecode ind hind
    rw [← hqeq] at hentry
    have hmem2 : (patterns.getD ((firstPossible patterns.length waveGet
        (x - dxAt MX (m + 1) x + (y - dxAt MY (m + 1) y) * MX)).getD 0) []).getD
          (dxAt MX (m + 1) x + dxAt MY (m + 1) y * (m + 1)) 0 ∈
        patterns.getD ((firstPossible patterns.length waveGet
          (x - dxAt MX (m + 1) x + (y - dxAt MY (m + 1) y) * MX)).getD 0) [] := by
      apply getD_mem_of_lt_gen
      rw [hqlen]
      exact hidx
    have := hentry _ hmem2
    omega

/-- Witness for C10 at `C = 2`, `N = 1`, table `[[0], [1]]` (both rows
decodes of fingerprints `0` and `1`). -/
theorem claim_C10_decode_and_output_bounds_witness :
    ((2 : Nat) = [9, 8].length ∧ 0 < 2) ∧
      ((∀ ind, ind < 2 ^ (1 * 1) →
        ∀ e ∈ patternFromIndex 2 (2 ^ (1 * 1)) ind (1 * 1), e < 2) ∧
      ∀ x y : Nat,
        (firstPossible ([[0], [1]] : List (List Nat)).length (fun _ _ => true)
            (x - dxAt 1 1 x + (y - dxAt 1 1 y) * 1)).getD 0 <
          ([[0], [1]] : List (List Nat)).length ∧
        dxAt 1 1 x + dxAt 1 1 y * 1 <
          (([[0], [1]] : List (List Nat)).getD
            ((firstPossible ([[0], [1]] : List (List Nat)).length
              (fun _ _ => true)
              (x - dxAt 1 1 x + (y - dxAt 1 1 y) * 1)).getD 0) []).length ∧
        (([[0], [1]] : List (List Nat)).getD
            ((firstPossible ([[0], [1]] : List (List Nat)).length
              (fun _ _ => true)
              (x - dxAt 1 1 x + (y - dxAt 1 1 y) * 1)).getD 0) []).getD
          (dxAt 1 1 x + dxAt 1 1 y * 1) 0 < [9, 8].length) :=
  ⟨⟨by decide, by decide⟩,
   claim_C10_decode_and_output_bounds 2 1 1 1 [9, 8] [[0], [1]]
     (fun _ _ => true) (by decide) (by decide) (by decide)
     (by
       intro q hq
       rcases List.mem_cons.mp hq with rfl | hq
       · exact ⟨0, by decide, by decide⟩
       · rcases List.mem_cons.mp hq with rfl | hq
         · exact ⟨1, by decide, by decide⟩
         · cases hq)
     (by decide)⟩


/- ### C1: the solver driver, `clear`, and ground mode -/

/-- The state of the constraint engine: the dense cell × pattern
possibility matrix (cells in flat row-major order `x + y·MX`), the FIFO
ban queue, and the support counters.  `Wave` and the propagator state
live in the `WFC` base class, which is not part of the snapshot; they are
modelled from the spec (§4.3, §4.4). -/
structure PropState where
  wave : List (List Bool)
  queue : List (Nat × Nat)
  supp : Nat → Nat → Nat → Nat

def waveGetAt (w : List (List Bool)) (cell p : Nat) : Bool :=
  (w.getD cell []).getD p false

/-- Modelled from the spec: `ban(cell, pattern)` marks the pattern
impossible and enqueues the event for the propagator; calling `ban` on an
already-banned entry is a no-op. -/
def ban (st : PropState) (cell p : Nat) : PropState :=
  if waveGetAt st.wave cell p then
    { st with
        wave := st.wave.set cell ((st.wave.getD cell []).set p false),
        queue := st.queue ++ [(cell, p)] }
  else st

/-- Modelled from the spec: the neighbor of a cell in direction `d`;
wraps when the output is periodic, otherwise `none` out of bounds. -/
def neighborCell (MX MY : Nat) (periodic : Bool) (cell d : Nat) :
    Option Nat :=
  let nx : Int := ((cell % MX : Nat) : Int) + DX.getD d 0
  let ny : Int := ((cell / MX : Nat) : Int) + DY.getD d 0
  if periodic then
    some ((nx.emod MX).toNat + (ny.emod MY).toNat * MX)
  else if 0 ≤ nx ∧ nx < (MX : Int) ∧ 0 ≤ ny ∧ ny < (MY : Int) then
    some (nx.toNat + ny.toNat * MX)
  else none

/-- Modelled from the spec (§4.4): process one dequeued ban event — for
each direction, decrement the support counters of the patterns the
banned pattern supported at the neighbor, and ban any pattern whose
support reaches zero. -/
def propagateStep (MX MY : Nat) (periodic : Bool)
    (prop : Nat → Nat → List Nat) (st : PropState) : PropState :=
  match st.queue with
  | [] => st
  | (cell, p1) :: rest =>
    (List.range 4).foldl (fun st d =>
      match neighborCell MX MY periodic cell d with
      | none => st
      | some n =>
        (prop d p1).foldl (fun st p2 =>
          let s := st.supp n p2 d - 1
          let st' := { st with
            supp := fun c q e =>
              if c = n ∧ q = p2 ∧ e = d then s else st.supp c q e }
          if s = 0 then ban st' n p2 else st') st) { st with queue := rest }

/-- Modelled from the spec: drain the FIFO queue, one event per step. -/
def propagateGo (MX MY : Nat) (periodic : Bool)
    (prop : Nat → Nat → List Nat) : Nat → PropState → PropState
  | 0, st => st
  | fuel + 1, st =>
    match st.queue with
    | [] => st
    | _ =>
      propagateGo MX MY periodic prop fuel
        (propagateStep MX MY periodic prop st)

/-- Does some cell have zero still-possible patterns? -/
def hasEmptyCell (w : List (List Bool)) : Bool :=
  w.any fun cellRow => !cellRow.any fun b => b

/-- Modelled from the spec: `propagate()` drains the queue and reports
whether the wave is still everywhere non-empty (`true` = stable,
`false` = contradiction).  The iteration budget `MX·MY·P` plus the
pending queue is the spec's own worst-case bound (§9): each
`(cell, pattern)` pair is enqueued at most once thanks to the no-op rule
of `ban`. -/
def propagate (MX MY P : Nat) (periodic : Bool)
    (prop : Nat → Nat → List Nat) (st : PropState) : PropState × Bool :=
  let st' := propagateGo MX MY periodic prop
    (MX * MY * P + st.queue.length + 1) st
  (st', !hasEmptyCell st'.wave)

/-- The ground bans of `OverlappingWFC::clear` (lines 191-194): for each
column, ban every pattern but `P − 1` from the bottom row and ban pattern
`P − 1` from every other row. -/
def clearBans (MX MY P : Nat) (st : PropState) : PropState :=
  (List.range MX).foldl (fun st x =>
    let st := (List.range (P - 1)).foldl
      (fun st p => ban st (x + (MY - 1) * MX) p) st
    (List.range (MY - 1)).foldl
      (fun st y => ban st (x + y * MX) (P - 1)) st) st

/-- `OverlappingWFC::clear` (lines 189-200): when `ground` is set, issue
the ground bans and call `propagate()`; if propagation fails, print
"ground propagate failed" to `std::cerr` — the returned Bool records that
diagnostic — and return normally either way: `clear` is `noexcept void`,
so the failure is discarded rather than surfaced to the caller. -/
def clear (MX MY P : Nat) (periodic ground : Bool)
    (prop : Nat → Nat → List Nat) (st : PropState) : PropState × Bool :=
  if ground then
    let r := propagate MX MY P periodic prop (clearBans MX MY P st)
    (r.1, !r.2)
  else (st, false)

inductive ObserveResult where
  | done
  | contradiction
  | cell (c : Nat)

/-- Modelled from the spec: `observe_cell()` — CONTRADICTION when some
cell has zero possibilities, DONE when every cell is a singleton,
otherwise some not-yet-singleton cell (here the scanline choice; the
theorems below only exercise the contradiction path, which every
heuristic reports alike). -/
def observeCell (w : List (List Bool)) : ObserveResult :=
  if hasEmptyCell w then .contradiction
  else if w.all (fun row => row.count true == 1) then .done
  else .cell (w.findIdx fun row => !(row.count true == 1))

/-- Modelled from the spec: `collapse` keeps one remaining pattern —
chosen by the caller-supplied draw, abstracting the weighted RNG — and
bans all others. -/
def collapse (P : Nat) (choose : List Bool → Nat) (st : PropState)
    (c : Nat) : PropState :=
  let keep := choose (st.wave.getD c [])
  (List.range P).foldl (fun st p => if p = keep then st else ban st c p) st

/-- The outcomes of a run.  `groundFailure` is what the spec's
*GroundFailure* error would correspond to — a failure raised before the
first observe; the driver modelled on the source can never produce it,
because the source's `clear` swallows the ground-propagation failure. -/
inductive RunResult where
  | success
  | contradiction
  | groundFailure
  | fuelOut
deriving DecidableEq

/-- Modelled from the spec (§4.5): the observe → collapse → propagate
loop.  Returns the result together with the number of `observe_cell`
calls made. -/
def runLoop (MX MY P : Nat) (periodic : Bool)
    (prop : Nat → Nat → List Nat) (choose : List Bool → Nat) :
    Nat → PropState → Nat → RunResult × Nat
  | 0, _, count => (.fuelOut, count)
  | fuel + 1, st, count =>
    match observeCell st.wave with
    | .contradiction => (.contradiction, count + 1)
    | .done => (.success, count + 1)
    | .cell c =>
      let st1 := collapse P choose st c
      let r := propagate MX MY P periodic prop st1
      if r.2 then
        runLoop MX MY P periodic prop choose fuel r.1 (count + 1)
      else (.contradiction, count + 1)

/-- The all-possible initial wave, with the spec's initial support
counters. -/
def initialState (MX MY P : Nat) (prop : Nat → Nat → List Nat) :
    PropState :=
  ⟨List.replicate (MX * MY) (List.replicate P true), [],
   fun _ p d => (prop (3 - d) p).length⟩

/-- Modelled from the spec (§4.5, driver pseudocode), with `clear`
embedded from the source: run `clear`, then the observe loop.  Returns
`(result, number of observe calls, ground diagnostic emitted)`. -/
def run (MX MY P fuel : Nat) (periodic ground : Bool)
    (prop : Nat → Nat → List Nat) (choose : List Bool → Nat) :
    RunResult × Nat × Bool :=
  let c := clear MX MY P periodic ground prop (initialState MX MY P prop)
  let r := runLoop MX MY P periodic prop choose fuel c.1 0
  (r.1, r.2, c.2)


theorem clear_ground_eq (MX MY P : Nat) (periodic : Bool)
    (prop : Nat → Nat → List Nat) (st : PropState) :
    clear MX MY P periodic true prop st =
      ((propagate MX MY P periodic prop (clearBans MX MY P st)).1,
       !(propagate MX MY P periodic prop (clearBans MX MY P st)).2) := by
  unfold clear
  rw [if_pos rfl]

theorem propagate_snd (MX MY P : Nat) (periodic : Bool)
    (prop : Nat → Nat → List Nat) (st : PropState) :
    (propagate MX MY P periodic prop st).2 =
      !hasEmptyCell (propagate MX MY P periodic prop st).1.wave := rfl

/-- **C1 (counterexample).** Single-pattern table (`P = 1`), 2×2 output,
`ground = true`: the ground bans wipe every cell, so they propagate to a
contradiction (the diagnostic fires) — yet the run does not fail with
GroundFailure before the first observe: `clear()` only prints the
diagnostic and returns, the driver proceeds, and the *first* observe
reports a plain Contradiction (one observe call, result
`(contradiction, 1)`, not `(groundFailure, 0)`). -/
theorem claim_C1_counterexample :
    (clear 2 2 1 false true (fun d p => compat 1 [[0]] d p)
        (initialState 2 2 1 (fun d p => compat 1 [[0]] d p))).2 = true ∧
      run 2 2 1 4 false true (fun d p => compat 1 [[0]] d p) (fun _ => 0) =
        (RunResult.contradiction, 1, true) ∧
      (RunResult.contradiction, (1 : Nat), true) ≠
        (RunResult.groundFailure, (0 : Nat), true) :=
  ⟨by decide, by decide, by decide⟩

/-- **C1 (amended).** For every ground-mode configuration whose ground
bans propagate to a contradiction (the post-`clear` wave has an empty
cell), `clear()` reports the failure only on the diagnostic channel
("ground propagate failed" on `std::cerr`, the Bool here) and returns
normally; the run then proceeds to the first observe, which reports
Contradiction — the outcome is `(contradiction, 1 observe, diagnostic)`,
never a GroundFailure before the first observe. -/
theorem claim_C1_amended_ground_failure_swallowed (MX MY P fuel : Nat)
    (periodic : Bool) (prop : Nat → Nat → List Nat)
    (choose : List Bool → Nat) (hfuel : 0 < fuel)
    (hcontr : hasEmptyCell (clear MX MY P periodic true prop
        (initialState MX MY P prop)).1.wave = true) :
    (clear MX MY P periodic true prop (initialState MX MY P prop)).2 = true ∧
      run MX MY P fuel periodic true prop choose =
        (RunResult.contradiction, 1, true) := by
  have hdiag : (clear MX MY P periodic true prop
      (initialState MX MY P prop)).2 = true := by
    rw [clear_ground_eq] at hcontr ⊢
    rw [propagate_snd, Bool.not_not]
    exact hcontr
  refine ⟨hdiag, ?_⟩
  obtain ⟨f, rfl⟩ : ∃ f, fuel = f + 1 := ⟨fuel - 1, by omega⟩
  have hobs : observeCell (clear MX MY P periodic true prop
      (initialState MX MY P prop)).1.wave = ObserveResult.contradiction := by
    unfold observeCell
    rw [hcontr]
    rfl
  have hloop : runLoop MX MY P periodic prop choose (f + 1)
      (clear MX MY P periodic true prop (initialState MX MY P prop)).1 0 =
      (RunResult.contradiction, 1) := by
    rw [runLoop, hobs]
  show ((runLoop MX MY P periodic prop choose (f + 1)
        (clear MX MY P periodic true prop (initialState MX MY P prop)).1 0).1,
      (runLoop MX MY P periodic prop choose (f + 1)
        (clear MX MY P periodic true prop (initialState MX MY P prop)).1 0).2,
      (clear MX MY P periodic true prop (initialState MX MY P prop)).2) =
    (RunResult.contradiction, 1, true)
  rw [hloop, hdiag]

/-- Witness for the amended C1 at the counterexample's configuration. -/
theorem claim_C1_amended_ground_failure_swallowed_witness :
    ((0 : Nat) < 4 ∧
      hasEmptyCell (clear 2 2 1 false true (fun d p => compat 1 [[0]] d p)
        (initialState 2 2 1 (fun d p => compat 1 [[0]] d p))).1.wave = true) ∧
      ((clear 2 2 1 false true (fun d p => compat 1 [[0]] d p)
          (initialState 2 2 1 (fun d p => compat 1 [[0]] d p))).2 = true ∧
        run 2 2 1 4 false true (fun d p => compat 1 [[0]] d p) (fun _ => 0) =
          (RunResult.contradiction, 1, true)) :=
  ⟨⟨by decide, by decide⟩,
   claim_C1_amended_ground_failure_swallowed 2 2 1 4 false
     (fun d p => compat 1 [[0]] d p) (fun _ => 0) (by decide) (by decide)⟩


end WfcCpp
